import Mathlib

/-!
Verification of the markdown/mermaid-to-image pipeline in
`src/temp/convert_to_pdf.py`.

The script is a four-stage pipeline: extract fenced mermaid blocks from a
markdown document (`extract_mermaid_diagrams`), write each body to a scratch
file (`create_mermaid_files`), invoke an external renderer once per file
(`convert_diagrams_to_images`), and substitute image references back into the
document (`create_enhanced_markdown`).

Embedding conventions: Python strings are `List Char`; the filesystem write
performed by the materializer is returned as explicit name/content pairs; the
subprocess call is an oracle `run : List Char → RunOutcome` mapping the
invoked `.mmd` file to the outcome of the invocation; console prints are
returned as a list of notice strings.
-/

/-- Predicate: string `s` starts with `p` (a textual occurrence at offset 0). -/
def hasInit (p s : List Char) : Prop := ∃ t, s = p ++ t

/-- Boolean test that `s` starts with `p`. -/
def leadsWith : List Char → List Char → Bool
  | [], _ => true
  | _ :: _, [] => false
  | a :: ps, b :: ss => a == b && leadsWith ps ss

/-- First-occurrence split, the primitive behind Python `str.replace` and the
regex scan: `splitFirst s pat = some (a, b)` when `s = a ++ pat ++ b` and the
occurrence of `pat` at offset `a.length` is the leftmost one; `none` when
`pat` does not occur in `s`. -/
def splitFirst : List Char → List Char → Option (List Char × List Char)
  | [], [] => some ([], [])
  | [], _ :: _ => none
  | c :: s2, pat =>
    if leadsWith pat (c :: s2) then some ([], (c :: s2).drop pat.length)
    else (splitFirst s2 pat).map (fun p => (c :: p.1, p.2))

/-- Fence prefix of the extraction pattern (three backticks, `mermaid`, newline). -/
def mermaidOpen : List Char := "```mermaid\n".data

/-- Fence suffix of the extraction pattern (newline, three backticks). -/
def mermaidClose : List Char := "\n```".data

/-- Full fenced block for a body `d`, as reconstructed by the substituter. -/
def mermaidBlock (d : List Char) : List Char := mermaidOpen ++ d ++ mermaidClose

/-- Fuel-indexed worker for the extractor.  One step: find the leftmost fence
prefix; after it, the shortest body terminated by the fence suffix (the
non-greedy `(.*?)` under `re.DOTALL`); emit the body and continue after the
consumed match.  If the prefix occurs but no suffix follows it, no later
position can complete a match either, so the scan yields nothing further.
Each step consumes at least the two fences, so fuel `s.length` suffices. -/
def extractGo : Nat → List Char → List (List Char)
  | 0, _ => []
  | fuel + 1, s =>
    match splitFirst s mermaidOpen with
    | none => []
    | some (_, tail) =>
      match splitFirst tail mermaidClose with
      | none => []
      | some (d, rest) => d :: extractGo fuel rest

/-- Embedding of `extract_mermaid_diagrams`:
`re.findall(r'```mermaid\n(.*?)\n```', markdown_content, re.DOTALL)`. -/
def extract_mermaid_diagrams (content : List Char) : List (List Char) :=
  extractGo content.length content

/-- The ten decimal digit characters. -/
def decDigitList : List Char := "0123456789".data

/-- Decimal digit character for `n < 10`. -/
def decDigit (n : Nat) : Char := decDigitList.getD n (Char.ofNat 48)

/-- Fuel-indexed decimal rendering of a natural number, most significant digit
first; fuel `n + 1` always suffices. -/
def toDigitsGo : Nat → Nat → List Char
  | 0, _ => []
  | fuel + 1, n =>
    if n < 10 then [decDigit n] else toDigitsGo fuel (n / 10) ++ [decDigit (n % 10)]

/-- Decimal rendering of a natural number, as interpolated by Python f-strings. -/
def natToString (n : Nat) : List Char := toDigitsGo (n + 1) n

/-- Python `str.isspace`, the character class stripped by `str.strip()`:
CPython treats as whitespace U+0009 to U+000D (tab, newline, vertical tab,
form feed, carriage return), U+001C to U+001F (the information separators),
U+0020 (space), U+0085 (next line), U+00A0 (no-break space), U+1680 (ogham
space mark), U+2000 to U+200A (the typographic spaces), U+2028 (line
separator), U+2029 (paragraph separator), U+202F (narrow no-break space),
U+205F (medium mathematical space) and U+3000 (ideographic space). -/
def pyIsSpace (c : Char) : Bool :=
  decide ((9 ≤ c.toNat ∧ c.toNat ≤ 13) ∨ (28 ≤ c.toNat ∧ c.toNat ≤ 31) ∨
    c.toNat = 32 ∨ c.toNat = 133 ∨ c.toNat = 160 ∨ c.toNat = 5760 ∨
    (8192 ≤ c.toNat ∧ c.toNat ≤ 8202) ∨ c.toNat = 8232 ∨ c.toNat = 8233 ∨
    c.toNat = 8239 ∨ c.toNat = 8287 ∨ c.toNat = 12288)

/-- Python `str.strip()`: drop leading and trailing whitespace. -/
def pyStrip (s : List Char) : List Char :=
  ((s.dropWhile pyIsSpace).reverse.dropWhile pyIsSpace).reverse

/-- Scratch-directory stem of the materializer's file names. -/
def tmpDiagramStem : List Char := "/tmp/diagram_".data

/-- Extension of the materialized diagram source files. -/
def mmdExt : List Char := ".mmd".data

/-- Extension of the rendered image files. -/
def pngExt : List Char := ".png".data

/-- File name `f"/tmp/diagram_{k}.mmd"` used with the 1-based ordinal `k`. -/
def mmdName (k : Nat) : List Char := tmpDiagramStem ++ natToString k ++ mmdExt

/-- Worker for the materializer, carrying the 0-based loop index `i`. -/
def cmfGo : List (List Char) → Nat → List (List Char) × List (List Char × List Char)
  | [], _ => ([], [])
  | d :: ds, i =>
    let fn := mmdName (i + 1)
    let r := cmfGo ds (i + 1)
    (fn :: r.1, (fn, pyStrip d) :: r.2)

/-- Embedding of `create_mermaid_files`: first component is the returned list
of paths, second component records the filesystem writes performed, as
name/content pairs in processing order (`f.write(diagram.strip())`). -/
def create_mermaid_files (diagrams : List (List Char)) :
    List (List Char) × List (List Char × List Char) :=
  cmfGo diagrams 0

/-- Fuel-indexed worker for Python `str.replace(old, new)` replacing all
non-overlapping occurrences left to right; fuel `s.length + 1` suffices for a
non-empty `old`, the only way the script calls it. -/
def pyReplaceGo : Nat → List Char → List Char → List Char → List Char
  | 0, s, _, _ => s
  | fuel + 1, s, old, new =>
    match splitFirst s old with
    | none => s
    | some (a, b) => a ++ new ++ pyReplaceGo fuel b old new

/-- Python `str.replace(old, new)` (all occurrences). -/
def pyReplace (s old new : List Char) : List Char :=
  pyReplaceGo (s.length + 1) s old new

/-- Outcome of one `subprocess.run` invocation of the external renderer:
normal completion with an exit status and captured stderr, the 30-second
timeout (`subprocess.TimeoutExpired`), or any other raised exception. -/
inductive RunOutcome where
  | completed (returncode : Int) (stderr : List Char)
  | timeoutExpired
  | exn (msg : List Char)
deriving DecidableEq

/-- The script's success test on an invocation: `result.returncode == 0`. -/
def isSuccess : RunOutcome → Bool
  | .completed rc _ => rc == 0
  | _ => false

/-- Output image path: `mmd_file.replace('.mmd', '.png')`. -/
def pngName (f : List Char) : List Char := pyReplace f mmdExt pngExt

/-- Console text of the success notice. -/
def createdMsg : List Char := "✓ Created ".data

/-- Console text of the non-zero-exit notice. -/
def failedMsg : List Char := "✗ Failed to create ".data

/-- Separator between a notice and the attached diagnostic text. -/
def sepMsg : List Char := ": ".data

/-- Console text of the timeout notice. -/
def stalledMsg : List Char := "✗ Timeout converting ".data

/-- Console text of the generic invocation-error notice. -/
def errorMsg : List Char := "✗ Error converting ".data

/-- The notice printed for one renderer invocation, as a function of its
outcome. -/
def noticeOf (run : List Char → RunOutcome) (f : List Char) : List Char :=
  match run f with
  | .completed rc stderr =>
    if rc == 0 then createdMsg ++ pngName f
    else failedMsg ++ pngName f ++ sepMsg ++ stderr
  | .timeoutExpired => stalledMsg ++ f
  | .exn m => errorMsg ++ f ++ sepMsg ++ m

/-- Embedding of `convert_diagrams_to_images`: first component is the returned
list of image paths (appended only on zero exit status), second component the
notices printed, one per processed file. -/
def convert_diagrams_to_images (run : List Char → RunOutcome) :
    List (List Char) → List (List Char) × List (List Char)
  | [] => ([], [])
  | f :: fs =>
    let png := pngName f
    let r := convert_diagrams_to_images run fs
    match run f with
    | .completed rc stderr =>
      if rc == 0 then (png :: r.1, (createdMsg ++ png) :: r.2)
      else (r.1, (failedMsg ++ png ++ sepMsg ++ stderr) :: r.2)
    | .timeoutExpired => (r.1, (stalledMsg ++ f) :: r.2)
    | .exn m => (r.1, (errorMsg ++ f ++ sepMsg ++ m) :: r.2)

/-- Literal prefix of an image reference. -/
def imageRefPre : List Char := "![Diagram ".data

/-- Literal between the ordinal and the path of an image reference. -/
def imageRefMid : List Char := "](".data

/-- Literal suffix of an image reference. -/
def imageRefEnd : List Char := ")".data

/-- Image-reference line `f"![Diagram {i+1}]({path})"` for 0-based index `i`. -/
def imageRef (i : Nat) (path : List Char) : List Char :=
  imageRefPre ++ natToString (i + 1) ++ imageRefMid ++ path ++ imageRefEnd

/-- Python `str.replace(old, new, 1)`: replace the first occurrence only;
return the string unchanged when `old` does not occur. -/
def replaceFirst (s old new : List Char) : List Char :=
  match splitFirst s old with
  | none => s
  | some (a, b) => a ++ new ++ b

/-- Loop body of `create_enhanced_markdown` over the enumerated diagrams:
for loop index `i`, when `i < len(image_files)`, replace the first remaining
occurrence of the reconstructed fenced block with the image reference. -/
def cemGo (images : List (List Char)) : List Char → List (List Char) → Nat → List Char
  | enhanced, [], _ => enhanced
  | enhanced, d :: ds, i =>
    cemGo images
      (if i < images.length then
        replaceFirst enhanced (mermaidBlock d) (imageRef i (images.getD i []))
      else enhanced)
      ds (i + 1)

/-- Embedding of `create_enhanced_markdown`. -/
def create_enhanced_markdown (content : List Char) (images : List (List Char)) : List Char :=
  cemGo images content (extract_mermaid_diagrams content) 0

/-- Substituter as worded by the spec (section 4.4), used as the comparison
point for the refinement claim about `create_enhanced_markdown`: walk the
diagram bodies in extraction order; for the i-th diagram (0-based) where
i is below the image-sequence length, replace the first remaining textual
occurrence of the full fenced block with the image reference at index i;
diagrams beyond the image sequence are left unmodified. -/
def substituterSpec (content : List Char) (images : List (List Char)) : List Char :=
  ((extract_mermaid_diagrams content).enum).foldl
    (fun acc p =>
      if p.1 < images.length then
        replaceFirst acc (mermaidBlock p.2) (imageRef p.1 (images.getD p.1 []))
      else acc)
    content

/-- The enhanced-markdown content computed by `main` and written to the output
file, as a function of the input document and the renderer oracle. -/
def pipelineEnhanced (run : List Char → RunOutcome) (content : List Char) : List Char :=
  create_enhanced_markdown content
    (convert_diagrams_to_images run (create_mermaid_files (extract_mermaid_diagrams content)).1).1

/-- Interleaving `c0 ++ x0 ++ c1 ++ x1 ++ ... ++ t` of context segments and
replaced items, used to state where the blocks sat in the document and what
replaced them. -/
def chain : List (List Char) → List (List Char) → List Char → List Char
  | c :: cs, x :: xs, t => c ++ x ++ chain cs xs t
  | _, _, t => t

/-- A prefix is shielding when, whatever text follows it, no occurrence of the
fence prefix can start inside it (or straddle out of it). -/
def shields (A : List Char) : Prop :=
  ∀ (t : List Char) (j : Nat), j < A.length → ¬ hasInit mermaidOpen ((A ++ t).drop j)

/-- The backtick character. -/
def backtickChar : Char := Char.ofNat 96

/-- Image paths free of backticks cannot create or complete fence markers. -/
def backtickFree (s : List Char) : Prop := backtickChar ∉ s

/-- Sample document with two distinct diagram blocks (the spec's concrete
scenario for full success). -/
def sampleDocTwo : List Char :=
  "# Doc\n\n```mermaid\ngraph TD; A-->B\n```\n\ntext\n\n```mermaid\ngraph TD; C-->D\n```\nend\n".data

/-- Sample document with exactly one diagram block. -/
def sampleDocOne : List Char :=
  "intro\n```mermaid\ngraph TD; A-->B\n```\noutro\n".data

/-- Sample document with no diagram block. -/
def sampleDocPlain : List Char := "hello".data

/-- Sample document whose single body carries leading/trailing whitespace. -/
def sampleDocWs : List Char := "```mermaid\n x \n```".data

/-- The whitespace-carrying body of `sampleDocWs`. -/
def sampleBodyWs : List Char := " x ".data

/-- An adversarial image path containing a complete fenced block. -/
def evilPath : List Char := "x)\n```mermaid\nB\n```".data

/-- A benign image path. -/
def goodPathA : List Char := "a.png".data

/-- Renderer oracle that always succeeds. -/
def alwaysOk (_ : List Char) : RunOutcome := .completed 0 []

/-- Renderer oracle that always exits with status 1. -/
def alwaysFail (_ : List Char) : RunOutcome := .completed 1 []

/-- Renderer oracle that always times out. -/
def alwaysStallA (_ : List Char) : RunOutcome := .timeoutExpired

/-- A second, syntactically distinct renderer oracle that always times out. -/
def alwaysStallB (_ : List Char) : RunOutcome := .timeoutExpired

/-- Sample document consisting of exactly one diagram block and nothing else. -/
def sampleDocTiny : List Char := "```mermaid\nA\n```".data

/-- The image references inserted for loop indices `i, i+1, ..., i+k-1`. -/
def refsFrom (images : List (List Char)) (i k : Nat) : List (List Char) :=
  (List.range k).map (fun j => imageRef (i + j) (images.getD (i + j) []))

theorem hasInit_iff (p s : List Char) : hasInit p s ↔ ∃ t, s = p ++ t := Iff.rfl

theorem hasInit_trans {p q s : List Char} (h1 : hasInit p q) (h2 : hasInit q s) : hasInit p s := by
  obtain ⟨u, hu⟩ := h1
  obtain ⟨v, hv⟩ := h2
  exact ⟨u ++ v, by rw [hv, hu, List.append_assoc]⟩

theorem hasInit_mono {p a : List Char} (b : List Char) (h : hasInit p a) : hasInit p (a ++ b) := by
  obtain ⟨u, hu⟩ := h
  exact ⟨u ++ b, by rw [hu, List.append_assoc]⟩

theorem hasInit_left {p a b : List Char} (h : hasInit p (a ++ b)) (hl : p.length ≤ a.length) :
    hasInit p a := by
  obtain ⟨u, hu⟩ := h
  refine ⟨u.take (a.length - p.length), ?_⟩
  have h1 : (a ++ b).take a.length = a := List.take_left a b
  rw [hu] at h1
  rw [List.take_append_eq_append_take] at h1
  rw [List.take_of_length_le hl] at h1
  exact h1.symm

theorem leadsWith_iff : ∀ (p s : List Char), leadsWith p s = true ↔ hasInit p s
  | [], s => by
    simp [leadsWith, hasInit]
  | a :: ps, [] => by
    simp [leadsWith, hasInit]
  | a :: ps, b :: ss => by
    rw [show leadsWith (a :: ps) (b :: ss) = (a == b && leadsWith ps ss) from rfl,
      Bool.and_eq_true, beq_iff_eq, leadsWith_iff ps ss]
    simp only [hasInit]
    constructor
    · rintro ⟨rfl, t, rfl⟩
      exact ⟨t, rfl⟩
    · rintro ⟨t, ht⟩
      rw [List.cons_append] at ht
      injection ht with h1 h2
      exact ⟨h1.symm, t, h2⟩

theorem splitFirst_nil (pat : List Char) (h : pat ≠ []) : splitFirst [] pat = none := by
  cases pat with
  | nil => exact absurd rfl h
  | cons a ps => rfl

theorem splitFirst_eq : ∀ (s pat a b : List Char),
    splitFirst s pat = some (a, b) → s = a ++ pat ++ b
  | [], [], a, b, h => by
    simp only [splitFirst, Option.some.injEq] at h
    obtain ⟨rfl, rfl⟩ := Prod.mk.injEq .. ▸ (Prod.mk.inj h.symm)
    rfl
  | [], c :: ps, a, b, h => by
    simp [splitFirst] at h
  | c :: s2, pat, a, b, h => by
    rw [show splitFirst (c :: s2) pat =
        (if leadsWith pat (c :: s2) then some ([], (c :: s2).drop pat.length)
         else (splitFirst s2 pat).map (fun p => (c :: p.1, p.2))) from rfl] at h
    split at h
    case isTrue hl =>
      injection h with h2
      obtain ⟨rfl, rfl⟩ := Prod.mk.inj h2.symm
      obtain ⟨t, ht⟩ := (leadsWith_iff pat (c :: s2)).mp hl
      rw [List.nil_append, ht, List.drop_left]
    case isFalse hl =>
      cases hsp : splitFirst s2 pat with
      | none => rw [hsp] at h; simp at h
      | some p =>
        obtain ⟨a2, b2⟩ := p
        rw [hsp] at h
        simp only [Option.map_some', Option.some.injEq] at h
        obtain ⟨rfl, rfl⟩ := Prod.mk.inj h.symm
        have ih := splitFirst_eq s2 pat _ _ hsp
        rw [List.cons_append, List.cons_append, ← ih]

theorem splitFirst_min : ∀ (s pat a b : List Char), splitFirst s pat = some (a, b) →
    ∀ j, j < a.length → ¬ hasInit pat (s.drop j)
  | [], [], a, b, h => by
    simp only [splitFirst, Option.some.injEq] at h
    obtain ⟨rfl, rfl⟩ := Prod.mk.inj h.symm
    intro j hj
    simp at hj
  | [], c :: ps, a, b, h => by
    simp [splitFirst] at h
  | c :: s2, pat, a, b, h => by
    rw [show splitFirst (c :: s2) pat =
        (if leadsWith pat (c :: s2) then some ([], (c :: s2).drop pat.length)
         else (splitFirst s2 pat).map (fun p => (c :: p.1, p.2))) from rfl] at h
    split at h
    case isTrue hl =>
      injection h with h2
      obtain ⟨rfl, rfl⟩ := Prod.mk.inj h2.symm
      intro j hj
      simp at hj
    case isFalse hl =>
      cases hsp : splitFirst s2 pat with
      | none => rw [hsp] at h; simp at h
      | some p =>
        obtain ⟨a2, b2⟩ := p
        rw [hsp] at h
        simp only [Option.map_some', Option.some.injEq] at h
        obtain ⟨rfl, rfl⟩ := Prod.mk.inj h.symm
        intro j hj
        cases j with
        | zero =>
          intro hcon
          exact hl ((leadsWith_iff pat (c :: s2)).mpr hcon)
        | succ j2 =>
          have ih := splitFirst_min s2 pat _ _ hsp j2 (by simpa using hj)
          simpa using ih

theorem splitFirst_none : ∀ (s pat : List Char), splitFirst s pat = none →
    ∀ j, ¬ hasInit pat (s.drop j)
  | [], [], h => by simp [splitFirst] at h
  | [], c :: ps, h => by
    intro j hcon
    obtain ⟨t, ht⟩ := hcon
    simp at ht
  | c :: s2, pat, h => by
    rw [show splitFirst (c :: s2) pat =
        (if leadsWith pat (c :: s2) then some ([], (c :: s2).drop pat.length)
         else (splitFirst s2 pat).map (fun p => (c :: p.1, p.2))) from rfl] at h
    split at h
    case isTrue hl => simp at h
    case isFalse hl =>
      cases hsp : splitFirst s2 pat with
      | none =>
        intro j
        cases j with
        | zero =>
          intro hcon
          exact hl ((leadsWith_iff pat (c :: s2)).mpr hcon)
        | succ j2 =>
          have ih := splitFirst_none s2 pat hsp j2
          simpa using ih
      | some p => rw [hsp] at h; simp at h

theorem splitFirst_intro : ∀ (a pat b : List Char), pat ≠ [] →
    (∀ j, j < a.length → ¬ hasInit pat ((a ++ pat ++ b).drop j)) →
    splitFirst (a ++ pat ++ b) pat = some (a, b)
  | [], pat, b, hne, hmin => by
    cases pat with
    | nil => exact absurd rfl hne
    | cons d pat2 =>
      rw [List.nil_append, List.cons_append]
      rw [show splitFirst (d :: (pat2 ++ b)) (d :: pat2) =
          (if leadsWith (d :: pat2) (d :: (pat2 ++ b)) then
            some ([], (d :: (pat2 ++ b)).drop (d :: pat2).length)
           else (splitFirst (pat2 ++ b) (d :: pat2)).map (fun p => (d :: p.1, p.2))) from rfl]
      rw [if_pos ((leadsWith_iff _ _).mpr ⟨b, by simp⟩)]
      rw [show (d :: (pat2 ++ b)) = (d :: pat2) ++ b by simp]
      rw [List.drop_left]
  | c :: a2, pat, b, hne, hmin => by
    rw [List.cons_append, List.cons_append]
    rw [show splitFirst (c :: (a2 ++ pat ++ b)) pat =
        (if leadsWith pat (c :: (a2 ++ pat ++ b)) then
          some ([], (c :: (a2 ++ pat ++ b)).drop pat.length)
         else (splitFirst (a2 ++ pat ++ b) pat).map (fun p => (c :: p.1, p.2))) from rfl]
    rw [if_neg ?hneg]
    case hneg =>
      intro hl
      exact hmin 0 (by simp) (by simpa using (leadsWith_iff _ _).mp hl)
    have ih := splitFirst_intro a2 pat b hne (fun j hj hcon => by
      have := hmin (j + 1) (by simpa using Nat.succ_lt_succ hj)
      simp only [List.cons_append, List.drop_succ_cons] at this
      exact this hcon)
    rw [ih]
    rfl

theorem splitFirst_found (s pat a b : List Char) (h : splitFirst s pat = some (a, b)) :
    hasInit pat (s.drop a.length) := by
  rw [splitFirst_eq s pat a b h, List.append_assoc, List.drop_left]
  exact ⟨b, rfl⟩

theorem mermaidOpen_length : mermaidOpen.length = 11 := by decide

theorem mermaidClose_length : mermaidClose.length = 4 := by decide

theorem extractGo_stable : ∀ (f g : Nat) (s : List Char), s.length ≤ f → s.length ≤ g →
    extractGo f s = extractGo g s
  | 0, g, s, hf, _ => by
    have hs : s = [] := List.eq_nil_of_length_eq_zero (Nat.le_zero.mp hf)
    subst hs
    cases g with
    | zero => rfl
    | succ g2 => simp [extractGo, splitFirst_nil mermaidOpen (by decide)]
  | f + 1, 0, s, _, hg => by
    have hs : s = [] := List.eq_nil_of_length_eq_zero (Nat.le_zero.mp hg)
    subst hs
    simp [extractGo, splitFirst_nil mermaidOpen (by decide)]
  | f + 1, g + 1, s, hf, hg => by
    cases hsp : splitFirst s mermaidOpen with
    | none => simp [extractGo, hsp]
    | some p =>
      obtain ⟨c, tail⟩ := p
      cases hsc : splitFirst tail mermaidClose with
      | none => simp [extractGo, hsp, hsc]
      | some q =>
        obtain ⟨d, rest⟩ := q
        have h1 := congrArg List.length (splitFirst_eq _ _ _ _ hsp)
        have h2 := congrArg List.length (splitFirst_eq _ _ _ _ hsc)
        rw [List.length_append, List.length_append, mermaidOpen_length] at h1
        rw [List.length_append, List.length_append, mermaidClose_length] at h2
        simp only [extractGo, hsp, hsc]
        rw [extractGo_stable f g rest (by omega) (by omega)]

theorem extract_eq (s : List Char) :
    extract_mermaid_diagrams s =
      (match splitFirst s mermaidOpen with
      | none => []
      | some (_, tail) =>
        match splitFirst tail mermaidClose with
        | none => []
        | some (d, rest) => d :: extract_mermaid_diagrams rest) := by
  cases s with
  | nil => rfl
  | cons c s2 =>
    show extractGo (s2.length + 1) (c :: s2) = _
    cases hsp : splitFirst (c :: s2) mermaidOpen with
    | none => simp [extractGo, hsp]
    | some p =>
      obtain ⟨cc, tail⟩ := p
      cases hsc : splitFirst tail mermaidClose with
      | none => simp [extractGo, hsp, hsc]
      | some q =>
        obtain ⟨d, rest⟩ := q
        simp only [extractGo, hsp, hsc]
        have h1 := congrArg List.length (splitFirst_eq _ _ _ _ hsp)
        have h2 := congrArg List.length (splitFirst_eq _ _ _ _ hsc)
        rw [List.length_append, List.length_append, mermaidOpen_length] at h1
        rw [List.length_append, List.length_append, mermaidClose_length] at h2
        rw [show (c :: s2).length = s2.length + 1 from rfl] at h1
        exact congrArg (d :: ·)
          (extractGo_stable s2.length rest.length rest (by omega) le_rfl)

theorem hasInit_open_block (d : List Char) : hasInit mermaidOpen (mermaidBlock d) :=
  ⟨d ++ mermaidClose, by simp [mermaidBlock, List.append_assoc]⟩

theorem mermaidBlock_ne_nil (d : List Char) : mermaidBlock d ≠ [] := by
  simp [mermaidBlock, mermaidOpen]

theorem shields_nil : shields [] := by
  intro t j hj
  simp at hj

theorem shields_append {A B : List Char} (hA : shields A) (hB : shields B) :
    shields (A ++ B) := by
  intro t j hj
  rw [List.append_assoc]
  rcases Nat.lt_or_ge j A.length with h | h
  · exact hA (B ++ t) j h
  · have hd : (A ++ (B ++ t)).drop j = (B ++ t).drop (j - A.length) := by
      rw [List.drop_append_eq_append_drop, List.drop_eq_nil_of_le h, List.nil_append]
    rw [hd]
    rw [List.length_append] at hj
    exact hB t (j - A.length) (by omega)

theorem splitFirst_shifted (A t pat : List Char) (hA : shields A)
    (hpat : hasInit mermaidOpen pat) :
    splitFirst (A ++ t) pat = (splitFirst t pat).map (fun p => (A ++ p.1, p.2)) := by
  have hpe : pat ≠ [] := by
    obtain ⟨u, hu⟩ := hpat
    subst hu
    simp [mermaidOpen]
  cases hsp : splitFirst t pat with
  | none =>
    simp only [Option.map_none']
    cases h2 : splitFirst (A ++ t) pat with
    | none => rfl
    | some p =>
      obtain ⟨a, b⟩ := p
      exfalso
      have hocc := splitFirst_found _ _ _ _ h2
      rcases Nat.lt_or_ge a.length A.length with hlt | hge
      · exact hA t a.length hlt (hasInit_trans hpat hocc)
      · have hd : (A ++ t).drop a.length = t.drop (a.length - A.length) := by
          rw [List.drop_append_eq_append_drop, List.drop_eq_nil_of_le hge, List.nil_append]
        rw [hd] at hocc
        exact splitFirst_none t pat hsp (a.length - A.length) hocc
  | some p =>
    obtain ⟨a, b⟩ := p
    have heq := splitFirst_eq _ _ _ _ hsp
    have hmin := splitFirst_min _ _ _ _ hsp
    simp only [Option.map_some']
    have hs : A ++ t = (A ++ a) ++ pat ++ b := by
      rw [heq]; simp [List.append_assoc]
    rw [hs]
    apply splitFirst_intro (A ++ a) pat b hpe
    intro j hj hcon
    rw [← hs] at hcon
    rcases Nat.lt_or_ge j A.length with hlt | hge
    · exact hA t j hlt (hasInit_trans hpat hcon)
    · have hd : (A ++ t).drop j = t.drop (j - A.length) := by
        rw [List.drop_append_eq_append_drop, List.drop_eq_nil_of_le hge, List.nil_append]
      rw [hd] at hcon
      rw [List.length_append] at hj
      exact hmin (j - A.length) (by omega) hcon

theorem replaceFirst_shifted (A t pat new : List Char) (hA : shields A)
    (hpat : hasInit mermaidOpen pat) :
    replaceFirst (A ++ t) pat new = A ++ replaceFirst t pat new := by
  unfold replaceFirst
  rw [splitFirst_shifted A t pat hA hpat]
  cases splitFirst t pat with
  | none => rfl
  | some p =>
    obtain ⟨a, b⟩ := p
    simp [List.append_assoc]

theorem cemGo_shifted (images : List (List Char)) :
    ∀ (ds : List (List Char)) (A t : List Char) (i : Nat), shields A →
      cemGo images (A ++ t) ds i = A ++ cemGo images t ds i
  | [], A, t, i, hA => rfl
  | d :: ds, A, t, i, hA => by
    simp only [cemGo]
    by_cases hi : i < images.length
    · rw [if_pos hi, if_pos hi, replaceFirst_shifted A t _ _ hA (hasInit_open_block d)]
      exact cemGo_shifted images ds A _ (i + 1) hA
    · rw [if_neg hi, if_neg hi]
      exact cemGo_shifted images ds A t (i + 1) hA

theorem extract_shifted (A t : List Char) (hA : shields A) :
    extract_mermaid_diagrams (A ++ t) = extract_mermaid_diagrams t := by
  rw [extract_eq (A ++ t), extract_eq t]
  rw [splitFirst_shifted A t mermaidOpen hA ⟨[], by simp⟩]
  cases splitFirst t mermaidOpen with
  | none => rfl
  | some p =>
    obtain ⟨c, tail⟩ := p
    cases splitFirst tail mermaidClose with
    | none => rfl
    | some q => rfl

theorem shields_cr (s c tail ref : List Char)
    (hsp : splitFirst s mermaidOpen = some (c, tail))
    (href : ref[0]? = some '!')
    (hbt : backtickChar ∉ ref) :
    shields (c ++ ref) := by
  have heq := splitFirst_eq _ _ _ _ hsp
  have hmin := splitFirst_min _ _ _ _ hsp
  have hrefpos : 0 < ref.length := by
    cases ref with
    | nil => simp at href
    | cons a l => simp
  intro t j hj
  rw [List.length_append] at hj
  rw [List.append_assoc]
  rcases Nat.lt_or_ge j c.length with hjc | hjc
  · -- the occurrence would start inside `c`
    intro hcon
    have hd : (c ++ (ref ++ t)).drop j = c.drop j ++ (ref ++ t) := by
      rw [List.drop_append_eq_append_drop, show j - c.length = 0 by omega, List.drop_zero]
    rw [hd] at hcon
    rcases Nat.lt_or_ge (c.length - j) mermaidOpen.length with hk | hk
    · -- straddling occurrence: position c.length - j would carry both a fence
      -- character and the leading bang of the reference
      obtain ⟨u, hu⟩ := hcon
      have hlen : (c.drop j).length = c.length - j := by rw [List.length_drop]
      have h1 : (c.drop j ++ (ref ++ t))[c.length - j]? = (ref ++ t)[0]? := by
        rw [List.getElem?_append_right (by omega)]
        rw [hlen, Nat.sub_self]
      have h2 : (ref ++ t)[0]? = some '!' := by
        rw [List.getElem?_append_left hrefpos]
        exact href
      have h3 : mermaidOpen[c.length - j]? = some '!' := by
        rw [← @List.getElem?_append_left Char mermaidOpen u (c.length - j) hk, ← hu, h1, h2]
      have hmem : '!' ∈ mermaidOpen := by
        obtain ⟨hh, hg⟩ := List.getElem?_eq_some.mp h3
        exact hg ▸ List.getElem_mem hh
      exact absurd hmem (by decide)
    · -- occurrence entirely inside `c`: contradicts leftmost-ness of the split
      have hcc : hasInit mermaidOpen (c.drop j) :=
        hasInit_left hcon (by rw [List.length_drop]; omega)
      apply hmin j hjc
      have hs2 : s.drop j = c.drop j ++ (mermaidOpen ++ tail) := by
        rw [heq, List.append_assoc, List.drop_append_eq_append_drop,
          show j - c.length = 0 by omega, List.drop_zero]
      rw [hs2]
      exact hasInit_mono _ hcc
  · -- the occurrence would start inside `ref`, whose characters exclude backticks
    intro hcon
    obtain ⟨u, hu⟩ := hcon
    have hd : (c ++ (ref ++ t)).drop j = (ref ++ t).drop (j - c.length) := by
      rw [List.drop_append_eq_append_drop, List.drop_eq_nil_of_le hjc, List.nil_append]
    rw [hd] at hu
    have h0 : ((ref ++ t).drop (j - c.length))[0]? = some backtickChar := by
      rw [hu, List.getElem?_append_left (by rw [mermaidOpen_length]; omega)]
      decide
    rw [List.getElem?_drop] at h0
    rw [Nat.add_zero] at h0
    rw [List.getElem?_append_left (by omega)] at h0
    have hmem : backtickChar ∈ ref := by
      obtain ⟨hh, hg⟩ := List.getElem?_eq_some.mp h0
      exact hg ▸ List.getElem_mem hh
    exact absurd hmem hbt

theorem decDigit_mem (n : Nat) : decDigit n ∈ decDigitList := by
  unfold decDigit
  rcases Nat.lt_or_ge n decDigitList.length with h | h
  · rw [List.getD_eq_getElem _ _ h]
    exact List.getElem_mem h
  · rw [List.getD_eq_getElem?_getD, List.getElem?_eq_none (by omega)]
    decide

theorem toDigitsGo_mem : ∀ (fuel n : Nat) (c : Char), c ∈ toDigitsGo fuel n → c ∈ decDigitList
  | 0, n, c, h => by simp [toDigitsGo] at h
  | fuel + 1, n, c, h => by
    rw [toDigitsGo] at h
    split at h
    · rw [List.mem_singleton] at h
      exact h ▸ decDigit_mem n
    · rw [List.mem_append] at h
      rcases h with h | h
      · exact toDigitsGo_mem fuel (n / 10) c h
      · rw [List.mem_singleton] at h
        exact h ▸ decDigit_mem (n % 10)

theorem natToString_all_digits (n : Nat) (c : Char) (h : c ∈ natToString n) :
    c ∈ decDigitList :=
  toDigitsGo_mem (n + 1) n c h

theorem natToString_no_backtick (n : Nat) : backtickChar ∉ natToString n := by
  intro h
  exact absurd (natToString_all_digits n backtickChar h) (by decide)

theorem imageRef_head (i : Nat) (path : List Char) : (imageRef i path)[0]? = some '!' := by
  unfold imageRef
  rw [List.append_assoc, List.append_assoc, List.append_assoc]
  rw [List.getElem?_append_left (by decide)]
  decide

theorem imageRef_no_backtick (i : Nat) (path : List Char) (h : backtickChar ∉ path) :
    backtickChar ∉ imageRef i path := by
  unfold imageRef
  simp only [List.mem_append, not_or]
  exact ⟨⟨⟨⟨by decide, natToString_no_backtick (i + 1)⟩, by decide⟩, h⟩, by decide⟩

theorem splitFirst_block (s c tail d rest : List Char)
    (hsp : splitFirst s mermaidOpen = some (c, tail))
    (hsc : splitFirst tail mermaidClose = some (d, rest)) :
    splitFirst s (mermaidBlock d) = some (c, rest) := by
  have h1 := splitFirst_eq _ _ _ _ hsp
  have h2 := splitFirst_eq _ _ _ _ hsc
  have hmin := splitFirst_min _ _ _ _ hsp
  have hs : s = c ++ mermaidBlock d ++ rest := by
    rw [h1, h2]
    simp [mermaidBlock, List.append_assoc]
  rw [hs]
  apply splitFirst_intro c (mermaidBlock d) rest (mermaidBlock_ne_nil d)
  intro j hj hcon
  apply hmin j hj
  rw [← hs] at hcon
  exact hasInit_trans (hasInit_open_block d) hcon

theorem replaceFirst_block (s c tail d rest new : List Char)
    (hsp : splitFirst s mermaidOpen = some (c, tail))
    (hsc : splitFirst tail mermaidClose = some (d, rest)) :
    replaceFirst s (mermaidBlock d) new = c ++ new ++ rest := by
  unfold replaceFirst
  rw [splitFirst_block s c tail d rest hsp hsc]

theorem cemGo_ge (images : List (List Char)) :
    ∀ (ds : List (List Char)) (s : List Char) (i : Nat), images.length ≤ i →
      cemGo images s ds i = s
  | [], s, i, h => rfl
  | d :: ds, s, i, h => by
    simp only [cemGo, if_neg (by omega : ¬ i < images.length)]
    exact cemGo_ge images ds s (i + 1) (by omega)

theorem chain_append : ∀ (cs xs : List (List Char)) (t : List Char),
    chain cs xs t = chain cs xs [] ++ t
  | [], [], t => rfl
  | [], _ :: _, t => rfl
  | _ :: _, [], t => rfl
  | c :: cs, x :: xs, t => by
    simp only [chain]
    rw [chain_append cs xs t]
    simp [List.append_assoc]

theorem refsFrom_succ (images : List (List Char)) (i k : Nat) :
    refsFrom images i (k + 1) =
      imageRef i (images.getD i []) :: refsFrom images (i + 1) k := by
  unfold refsFrom
  rw [List.range_succ_eq_map, List.map_cons, List.map_map]
  congr 1
  apply List.map_congr_left
  intro a _
  simp only [Function.comp_apply]
  rw [show i + Nat.succ a = i + 1 + a by omega]

theorem refsFrom_zero (images : List (List Char)) (k : Nat) :
    refsFrom images 0 k = (List.range k).map (fun j => imageRef j (images.getD j [])) := by
  unfold refsFrom
  apply List.map_congr_left
  intro a _
  rw [Nat.zero_add]

theorem cem_decomp (images : List (List Char)) (hbt : ∀ img ∈ images, backtickChar ∉ img) :
    ∀ (ds : List (List Char)) (s : List Char) (i : Nat),
      extract_mermaid_diagrams s = ds →
      ∃ (segs : List (List Char)) (rest : List Char),
        segs.length = min ds.length (images.length - i) ∧
        s = chain segs ((ds.take segs.length).map mermaidBlock) rest ∧
        extract_mermaid_diagrams rest = ds.drop segs.length ∧
        cemGo images s ds i = chain segs (refsFrom images i segs.length) rest ∧
        shields (chain segs (refsFrom images i segs.length) [])
  | [], s, i, hs =>
    ⟨[], s, by simp, rfl, by simpa using hs, rfl, shields_nil⟩
  | d :: ds, s, i, hs => by
    by_cases him : i < images.length
    case neg =>
      refine ⟨[], s, ?_, rfl, ?_, ?_, shields_nil⟩
      · rw [show images.length - i = 0 by omega]
        simp
      · simpa using hs
      · exact cemGo_ge images (d :: ds) s i (by omega)
    case pos =>
      rw [extract_eq] at hs
      cases hsp : splitFirst s mermaidOpen with
      | none => rw [hsp] at hs; simp at hs
      | some p =>
        obtain ⟨c, tail⟩ := p
        cases hsc : splitFirst tail mermaidClose with
        | none =>
          simp only [hsp, hsc] at hs
          exact absurd hs.symm (List.cons_ne_nil d ds)
        | some q =>
          obtain ⟨d0, rest0⟩ := q
          simp only [hsp, hsc] at hs
          injection hs with hd0 hds
          subst hd0
          have hs2 : s = c ++ mermaidBlock d0 ++ rest0 := by
            rw [splitFirst_eq _ _ _ _ hsp, splitFirst_eq _ _ _ _ hsc]
            simp [mermaidBlock, List.append_assoc]
          have hpath : backtickChar ∉ images.getD i [] := by
            rw [List.getD_eq_getElem _ _ him]
            exact hbt _ (List.getElem_mem him)
          have hshr : shields (c ++ imageRef i (images.getD i [])) :=
            shields_cr s c tail _ hsp (imageRef_head _ _) (imageRef_no_backtick _ _ hpath)
          obtain ⟨segs, rest, hlen, hdec, hext, hcem, hsh⟩ :=
            cem_decomp images hbt ds rest0 (i + 1) hds
          refine ⟨c :: segs, rest, ?_, ?_, ?_, ?_, ?_⟩
          · simp only [List.length_cons, hlen]
            omega
          · rw [List.length_cons, List.take_succ_cons, List.map_cons]
            simp only [chain]
            rw [← hdec]
            exact hs2
          · rw [List.length_cons, List.drop_succ_cons]
            exact hext
          · simp only [cemGo, if_pos him]
            rw [replaceFirst_block s c tail d0 rest0 (imageRef i (images.getD i [])) hsp hsc]
            rw [cemGo_shifted images ds (c ++ imageRef i (images.getD i [])) rest0 (i + 1) hshr]
            rw [hcem]
            rw [List.length_cons, refsFrom_succ]
            simp only [chain]
          · rw [List.length_cons, refsFrom_succ]
            simp only [chain]
            exact shields_append hshr hsh

theorem convert_fst (run : List Char → RunOutcome) : ∀ (files : List (List Char)),
    (convert_diagrams_to_images run files).1 =
      (files.filter (fun f => isSuccess (run f))).map pngName
  | [] => rfl
  | f :: fs => by
    have ih := convert_fst run fs
    rw [List.filter_cons]
    cases hrf : run f with
    | completed rc stderr =>
      cases h0 : (rc == 0) with
      | true =>
        have hps : isSuccess (RunOutcome.completed rc stderr) = true := h0
        have hl : (convert_diagrams_to_images run (f :: fs)).1 =
            pngName f :: (convert_diagrams_to_images run fs).1 := by
          simp [convert_diagrams_to_images, hrf, h0]
        rw [hl, if_pos hps, List.map_cons, ih]
      | false =>
        have hps : ¬ (isSuccess (RunOutcome.completed rc stderr) = true) := by
          simp [isSuccess, h0]
        have hl : (convert_diagrams_to_images run (f :: fs)).1 =
            (convert_diagrams_to_images run fs).1 := by
          simp [convert_diagrams_to_images, hrf, h0]
        rw [hl, if_neg hps, ih]
    | timeoutExpired =>
      have hps : ¬ (isSuccess RunOutcome.timeoutExpired = true) := by simp [isSuccess]
      have hl : (convert_diagrams_to_images run (f :: fs)).1 =
          (convert_diagrams_to_images run fs).1 := by
        simp [convert_diagrams_to_images, hrf]
      rw [hl, if_neg hps, ih]
    | exn m =>
      have hps : ¬ (isSuccess (RunOutcome.exn m) = true) := by simp [isSuccess]
      have hl : (convert_diagrams_to_images run (f :: fs)).1 =
          (convert_diagrams_to_images run fs).1 := by
        simp [convert_diagrams_to_images, hrf]
      rw [hl, if_neg hps, ih]

theorem convert_snd (run : List Char → RunOutcome) : ∀ (files : List (List Char)),
    (convert_diagrams_to_images run files).2 = files.map (noticeOf run)
  | [] => rfl
  | f :: fs => by
    have ih := convert_snd run fs
    rw [List.map_cons]
    cases hrf : run f with
    | completed rc stderr =>
      cases h0 : (rc == 0) with
      | true =>
        have hr : noticeOf run f = createdMsg ++ pngName f := by
          simp [noticeOf, hrf, h0]
        have hl : (convert_diagrams_to_images run (f :: fs)).2 =
            (createdMsg ++ pngName f) :: (convert_diagrams_to_images run fs).2 := by
          simp [convert_diagrams_to_images, hrf, h0]
        rw [hl, hr, ih]
      | false =>
        have hr : noticeOf run f = failedMsg ++ pngName f ++ sepMsg ++ stderr := by
          simp [noticeOf, hrf, h0]
        have hl : (convert_diagrams_to_images run (f :: fs)).2 =
            (failedMsg ++ pngName f ++ sepMsg ++ stderr) ::
              (convert_diagrams_to_images run fs).2 := by
          simp [convert_diagrams_to_images, hrf, h0]
        rw [hl, hr, ih]
    | timeoutExpired =>
      have hr : noticeOf run f = stalledMsg ++ f := by simp [noticeOf, hrf]
      have hl : (convert_diagrams_to_images run (f :: fs)).2 =
          (stalledMsg ++ f) :: (convert_diagrams_to_images run fs).2 := by
        simp [convert_diagrams_to_images, hrf]
      rw [hl, hr, ih]
    | exn m =>
      have hr : noticeOf run f = errorMsg ++ f ++ sepMsg ++ m := by simp [noticeOf, hrf]
      have hl : (convert_diagrams_to_images run (f :: fs)).2 =
          (errorMsg ++ f ++ sepMsg ++ m) :: (convert_diagrams_to_images run fs).2 := by
        simp [convert_diagrams_to_images, hrf]
      rw [hl, hr, ih]

theorem convert_congr (run1 run2 : List Char → RunOutcome) : ∀ (files : List (List Char)),
    (∀ f ∈ files, run1 f = run2 f) →
    convert_diagrams_to_images run1 files = convert_diagrams_to_images run2 files
  | [], _ => rfl
  | f :: fs, h => by
    have ih := convert_congr run1 run2 fs (fun g hg => h g (List.mem_cons_of_mem f hg))
    simp only [convert_diagrams_to_images, ih, h f (List.mem_cons_self f fs)]

theorem cmfGo_fst : ∀ (ds : List (List Char)) (i : Nat),
    (cmfGo ds i).1 = (List.range ds.length).map (fun k => mmdName (i + k + 1))
  | [], i => rfl
  | d :: ds, i => by
    have ih := cmfGo_fst ds (i + 1)
    simp only [cmfGo, ih, List.length_cons]
    rw [List.range_succ_eq_map, List.map_cons, List.map_map]
    congr 1
    apply List.map_congr_left
    intro a _
    simp only [Function.comp_apply]
    rw [show i + 1 + a + 1 = i + Nat.succ a + 1 by omega]

theorem cmfGo_fst_length : ∀ (ds : List (List Char)) (i : Nat),
    (cmfGo ds i).1.length = ds.length
  | [], i => rfl
  | d :: ds, i => by
    simp only [cmfGo, List.length_cons, cmfGo_fst_length ds (i + 1)]

theorem cmfGo_snd_fst : ∀ (ds : List (List Char)) (i : Nat),
    (cmfGo ds i).2.map Prod.fst = (cmfGo ds i).1
  | [], i => rfl
  | d :: ds, i => by
    simp only [cmfGo, List.map_cons, cmfGo_snd_fst ds (i + 1)]

theorem cmfGo_snd_snd : ∀ (ds : List (List Char)) (i : Nat),
    (cmfGo ds i).2.map Prod.snd = ds.map pyStrip
  | [], i => rfl
  | d :: ds, i => by
    simp only [cmfGo, List.map_cons, cmfGo_snd_snd ds (i + 1)]

theorem cemGo_enumFrom (images : List (List Char)) : ∀ (ds : List (List Char)) (s : List Char) (i : Nat),
    cemGo images s ds i = (List.enumFrom i ds).foldl
      (fun acc p =>
        if p.1 < images.length then
          replaceFirst acc (mermaidBlock p.2) (imageRef p.1 (images.getD p.1 []))
        else acc) s
  | [], s, i => rfl
  | d :: ds, s, i => by
    rw [List.enumFrom_cons, List.foldl_cons]
    simp only [cemGo]
    exact cemGo_enumFrom images ds _ (i + 1)

theorem extract_mem_decomp : ∀ (n : Nat) (s : List Char), s.length ≤ n →
    ∀ d, d ∈ extract_mermaid_diagrams s → ∃ a b, s = a ++ mermaidBlock d ++ b
  | 0, s, hn, d, hd => by
    have hs : s = [] := List.eq_nil_of_length_eq_zero (Nat.le_zero.mp hn)
    subst hs
    simp [extract_mermaid_diagrams, extractGo] at hd
  | n + 1, s, hn, d, hd => by
    rw [extract_eq] at hd
    cases hsp : splitFirst s mermaidOpen with
    | none => rw [hsp] at hd; simp at hd
    | some p =>
      obtain ⟨c, tail⟩ := p
      cases hsc : splitFirst tail mermaidClose with
      | none => simp only [hsp, hsc] at hd; simp at hd
      | some q =>
        obtain ⟨d0, rest0⟩ := q
        simp only [hsp, hsc] at hd
        have hs2 : s = c ++ mermaidBlock d0 ++ rest0 := by
          rw [splitFirst_eq _ _ _ _ hsp, splitFirst_eq _ _ _ _ hsc]
          simp [mermaidBlock, List.append_assoc]
        rcases List.mem_cons.mp hd with rfl | hd2
        · exact ⟨c, rest0, hs2⟩
        · have hlen : rest0.length ≤ n := by
            have h1 := congrArg List.length hs2
            rw [List.length_append, List.length_append] at h1
            have h2 : (mermaidBlock d0).length =
                11 + d0.length + 4 := by
              rw [mermaidBlock, List.length_append, List.length_append,
                mermaidOpen_length, mermaidClose_length]
            omega
          obtain ⟨a2, b2, hab⟩ := extract_mem_decomp n rest0 hlen d hd2
          exact ⟨c ++ mermaidBlock d0 ++ a2, b2, by rw [hs2, hab]; simp [List.append_assoc]⟩

theorem extract_nil_of_no_block (s : List Char)
    (h : ¬ ∃ a d b, s = a ++ mermaidBlock d ++ b) :
    extract_mermaid_diagrams s = [] := by
  rw [extract_eq]
  cases hsp : splitFirst s mermaidOpen with
  | none => rfl
  | some p =>
    obtain ⟨c, tail⟩ := p
    cases hsc : splitFirst tail mermaidClose with
    | none => simp only [hsc]
    | some q =>
      obtain ⟨d, rest⟩ := q
      exact absurd ⟨c, d, rest, by
        rw [splitFirst_eq _ _ _ _ hsp, splitFirst_eq _ _ _ _ hsc]
        simp [mermaidBlock, List.append_assoc]⟩ h

theorem pyReplaceGo_not_mem (x : Char) : ∀ (fuel : Nat) (s old new : List Char),
    x ∉ s → x ∉ new → x ∉ pyReplaceGo fuel s old new
  | 0, s, _, _, hs, _ => hs
  | fuel + 1, s, old, new, hs, hn => by
    cases hsp : splitFirst s old with
    | none => simpa [pyReplaceGo, hsp] using hs
    | some p =>
      obtain ⟨a, b⟩ := p
      simp only [pyReplaceGo, hsp]
      rw [splitFirst_eq _ _ _ _ hsp] at hs
      simp only [List.mem_append, not_or] at hs ⊢
      exact ⟨⟨hs.1.1, hn⟩, pyReplaceGo_not_mem x fuel b old new hs.2 hn⟩

theorem pngName_no_backtick (f : List Char) (h : backtickChar ∉ f) :
    backtickChar ∉ pngName f :=
  pyReplaceGo_not_mem backtickChar (f.length + 1) f mmdExt pngExt h (by decide)

theorem mmdName_no_backtick (k : Nat) : backtickChar ∉ mmdName k := by
  unfold mmdName
  simp only [List.mem_append, not_or]
  exact ⟨⟨by decide, natToString_no_backtick k⟩, by decide⟩

theorem cmf_paths_no_backtick (ds : List (List Char)) :
    ∀ f ∈ (create_mermaid_files ds).1, backtickChar ∉ f := by
  intro f hf
  rw [create_mermaid_files, cmfGo_fst] at hf
  obtain ⟨k, _, rfl⟩ := List.exists_of_mem_map hf
  exact mmdName_no_backtick _

/-- Claim C1: for every document text and image-path sequence, the substituter
`create_enhanced_markdown` walks the extracted diagram bodies in extraction
order and, for each 0-based index i with i below the image-sequence length,
replaces the first remaining textual occurrence of that diagram's full fenced
block with the image-reference line for image index i; diagrams at indices at
or beyond the image-sequence length are left unmodified.  The embedding is a
pure function, so the input string is returned transformed, never mutated.
Stated as a refinement: the embedded code equals the substituter as worded by
the spec (`substituterSpec`). -/
theorem claim1_substituter_matches_spec (content : List Char) (images : List (List Char)) :
    create_enhanced_markdown content images = substituterSpec content images := by
  unfold create_enhanced_markdown substituterSpec
  rw [List.enum_eq_enumFrom]
  exact cemGo_enumFrom images (extract_mermaid_diagrams content) content 0

/-- Claim C2: the renderer invoker returns exactly the output image paths of
the invocations that exited with status zero, in processing order and with no
ordinal tagging (the result compacts over failures); every processed file,
successful or not, contributes exactly one emitted notice and processing
continues past failures, timeouts and other invocation errors. -/
theorem claim2_renderer_compacts_over_failures (run : List Char → RunOutcome)
    (files : List (List Char)) :
    (convert_diagrams_to_images run files).1 =
      (files.filter (fun f => isSuccess (run f))).map pngName ∧
    (convert_diagrams_to_images run files).2 = files.map (noticeOf run) :=
  ⟨convert_fst run files, convert_snd run files⟩

/-- Claim C3: if every render invocation for a document's n diagrams succeeds,
the image sequence has length n, and the enhanced document decomposes as the
original with each of the n fenced blocks replaced, in extraction order, by
the image reference carrying its ordinal; no fenced block remains. -/
theorem claim3_full_success_replaces_all (content : List Char) (run : List Char → RunOutcome)
    (hsucc : ∀ f ∈ (create_mermaid_files (extract_mermaid_diagrams content)).1,
      isSuccess (run f) = true) :
    (convert_diagrams_to_images run
      (create_mermaid_files (extract_mermaid_diagrams content)).1).1.length =
      (extract_mermaid_diagrams content).length ∧
    ∃ segs rest,
      segs.length = (extract_mermaid_diagrams content).length ∧
      content = chain segs ((extract_mermaid_diagrams content).map mermaidBlock) rest ∧
      pipelineEnhanced run content = chain segs
        ((List.range (extract_mermaid_diagrams content).length).map (fun j => imageRef j
          ((convert_diagrams_to_images run
            (create_mermaid_files (extract_mermaid_diagrams content)).1).1.getD j [])))
        rest ∧
      extract_mermaid_diagrams (pipelineEnhanced run content) = [] := by
  have himg : (convert_diagrams_to_images run
      (create_mermaid_files (extract_mermaid_diagrams content)).1).1 =
      (create_mermaid_files (extract_mermaid_diagrams content)).1.map pngName := by
    rw [convert_fst, List.filter_eq_self.mpr hsucc]
  have hlen1 : (convert_diagrams_to_images run
      (create_mermaid_files (extract_mermaid_diagrams content)).1).1.length =
      (extract_mermaid_diagrams content).length := by
    rw [himg, List.length_map, create_mermaid_files, cmfGo_fst_length]
  refine ⟨hlen1, ?_⟩
  have hbt : ∀ img ∈ (convert_diagrams_to_images run
      (create_mermaid_files (extract_mermaid_diagrams content)).1).1, backtickChar ∉ img := by
    intro img hm
    rw [himg] at hm
    obtain ⟨f, hf, rfl⟩ := List.exists_of_mem_map hm
    exact pngName_no_backtick f (cmf_paths_no_backtick _ f hf)
  obtain ⟨segs, rest, hslen, hdec, hext, hcem, hsh⟩ :=
    cem_decomp _ hbt (extract_mermaid_diagrams content) content 0 rfl
  have hk : segs.length = (extract_mermaid_diagrams content).length := by
    rw [hslen, Nat.sub_zero, hlen1]
    exact Nat.min_self _
  refine ⟨segs, rest, hk, ?_, ?_, ?_⟩
  · rw [hk, List.take_length] at hdec
    exact hdec
  · show pipelineEnhanced run content = _
    unfold pipelineEnhanced create_enhanced_markdown
    rw [hcem, hk, refsFrom_zero]
  · unfold pipelineEnhanced create_enhanced_markdown
    rw [hcem, chain_append, extract_shifted _ _ hsh, hext, hk, List.drop_length]

/-- Claim C3 witness at the spec's concrete scenario: a document with two
distinct diagram blocks and a renderer that always succeeds. -/
theorem claim3_witness :
    (∀ f ∈ (create_mermaid_files (extract_mermaid_diagrams sampleDocTwo)).1,
      isSuccess (alwaysOk f) = true) ∧
    ((convert_diagrams_to_images alwaysOk
      (create_mermaid_files (extract_mermaid_diagrams sampleDocTwo)).1).1.length =
      (extract_mermaid_diagrams sampleDocTwo).length ∧
    ∃ segs rest,
      segs.length = (extract_mermaid_diagrams sampleDocTwo).length ∧
      sampleDocTwo = chain segs ((extract_mermaid_diagrams sampleDocTwo).map mermaidBlock) rest ∧
      pipelineEnhanced alwaysOk sampleDocTwo = chain segs
        ((List.range (extract_mermaid_diagrams sampleDocTwo).length).map (fun j => imageRef j
          ((convert_diagrams_to_images alwaysOk
            (create_mermaid_files (extract_mermaid_diagrams sampleDocTwo)).1).1.getD j [])))
        rest ∧
      extract_mermaid_diagrams (pipelineEnhanced alwaysOk sampleDocTwo) = []) :=
  ⟨fun f _ => rfl, claim3_full_success_replaces_all sampleDocTwo alwaysOk (fun f _ => rfl)⟩

/-- Claim C4: for a document with exactly one diagram block whose render
invocation fails (non-zero exit), the successful-image sequence is empty and
the enhanced output is identical, character for character, to the input. -/
theorem claim4_single_failure_leaves_input_unchanged (content : List Char)
    (run : List Char → RunOutcome)
    (hn : (extract_mermaid_diagrams content).length = 1)
    (hfail : ∀ f, isSuccess (run f) = false) :
    pipelineEnhanced run content = content := by
  unfold pipelineEnhanced
  have h0 : (convert_diagrams_to_images run
      (create_mermaid_files (extract_mermaid_diagrams content)).1).1 = [] := by
    rw [convert_fst, List.filter_eq_nil_iff.mpr (fun f _ => by simp [hfail f])]
    rfl
  rw [h0]
  unfold create_enhanced_markdown
  exact cemGo_ge [] (extract_mermaid_diagrams content) content 0 (by simp)

/-- Claim C4 witness: one-block document, renderer exiting with status 1. -/
theorem claim4_witness :
    ((extract_mermaid_diagrams sampleDocOne).length = 1) ∧
    (∀ f, isSuccess (alwaysFail f) = false) ∧
    pipelineEnhanced alwaysFail sampleDocOne = sampleDocOne :=
  ⟨by decide, fun f => rfl,
    claim4_single_failure_leaves_input_unchanged sampleDocOne alwaysFail (by decide)
      (fun f => rfl)⟩

/-- Claim C5: a document containing no tagged fenced diagram block (no
occurrence of any full fenced block) yields an empty extraction result, not an
error, and the enhanced output equals the input for every image sequence. -/
theorem claim5_no_blocks_identity (content : List Char)
    (h : ¬ ∃ a d b, content = a ++ mermaidBlock d ++ b) :
    extract_mermaid_diagrams content = [] ∧
    ∀ images, create_enhanced_markdown content images = content := by
  have he := extract_nil_of_no_block content h
  refine ⟨he, fun images => ?_⟩
  unfold create_enhanced_markdown
  rw [he]
  rfl

/-- Claim C5 witness: the five-character document with no fences. -/
theorem claim5_witness :
    (¬ ∃ a d b, sampleDocPlain = a ++ mermaidBlock d ++ b) ∧
    (extract_mermaid_diagrams sampleDocPlain = [] ∧
      ∀ images, create_enhanced_markdown sampleDocPlain images = sampleDocPlain) := by
  have hne : ¬ ∃ a d b, sampleDocPlain = a ++ mermaidBlock d ++ b := by
    rintro ⟨a, d, b, hab⟩
    have hlen := congrArg List.length hab
    rw [List.length_append, List.length_append] at hlen
    have hb : (mermaidBlock d).length = 11 + d.length + 4 := by
      rw [mermaidBlock, List.length_append, List.length_append,
        mermaidOpen_length, mermaidClose_length]
    have hs : sampleDocPlain.length = 5 := by decide
    omega
  exact ⟨hne, claim5_no_blocks_identity sampleDocPlain hne⟩

/-- Claim C6: the materializer produces exactly n files, named with the
1-based ordinals 1..n in the scratch directory, and returns those n paths in
input order; each performed write targets the path returned at its position. -/
theorem claim6_materializer_ordinal_files (ds : List (List Char)) :
    (create_mermaid_files ds).1.length = ds.length ∧
    (create_mermaid_files ds).1 = (List.range ds.length).map (fun k => mmdName (k + 1)) ∧
    (create_mermaid_files ds).2.map Prod.fst = (create_mermaid_files ds).1 := by
  refine ⟨?_, ?_, ?_⟩
  · rw [create_mermaid_files, cmfGo_fst_length]
  · rw [create_mermaid_files, cmfGo_fst]
    apply List.map_congr_left
    intro a _
    rw [Nat.zero_add]
  · rw [create_mermaid_files, cmfGo_snd_fst]

/-- Claim C7: every body returned by the extractor occurs verbatim in the
document between the two fences (leading and trailing whitespace preserved
exactly), while the contents the materializer writes are the bodies with
leading and trailing whitespace stripped. -/
theorem claim7_body_preserved_write_stripped (s : List Char) (ds : List (List Char))
    (d : List Char) (hd : d ∈ extract_mermaid_diagrams s) :
    (∃ a b, s = a ++ mermaidBlock d ++ b) ∧
    (create_mermaid_files ds).2.map Prod.snd = ds.map pyStrip :=
  ⟨extract_mem_decomp s.length s le_rfl d hd, by rw [create_mermaid_files, cmfGo_snd_snd]⟩

/-- Claim C7 witness: a body carrying leading and trailing spaces. -/
theorem claim7_witness :
    (sampleBodyWs ∈ extract_mermaid_diagrams sampleDocWs) ∧
    ((∃ a b, sampleDocWs = a ++ mermaidBlock sampleBodyWs ++ b) ∧
      (create_mermaid_files [sampleBodyWs]).2.map Prod.snd = [sampleBodyWs].map pyStrip) :=
  ⟨by decide,
    claim7_body_preserved_write_stripped sampleDocWs [sampleBodyWs] sampleBodyWs (by decide)⟩

/-- Claim C8: the pipeline's enhanced output is a deterministic function of
the input document and the renderer's per-diagram outcomes: two runs on the
same document whose renderer oracles agree on every materialized diagram file
produce byte-identical enhanced output. -/
theorem claim8_pipeline_deterministic (content : List Char)
    (run1 run2 : List Char → RunOutcome)
    (h : ∀ f ∈ (create_mermaid_files (extract_mermaid_diagrams content)).1,
      run1 f = run2 f) :
    pipelineEnhanced run1 content = pipelineEnhanced run2 content := by
  unfold pipelineEnhanced
  rw [convert_congr run1 run2 _ h]

/-- Claim C8 witness: two syntactically distinct but pointwise-equal renderer
oracles over the two-block document. -/
theorem claim8_witness :
    (∀ f ∈ (create_mermaid_files (extract_mermaid_diagrams sampleDocTwo)).1,
      alwaysStallA f = alwaysStallB f) ∧
    pipelineEnhanced alwaysStallA sampleDocTwo = pipelineEnhanced alwaysStallB sampleDocTwo :=
  ⟨fun f _ => rfl,
    claim8_pipeline_deterministic sampleDocTwo alwaysStallA alwaysStallB (fun f _ => rfl)⟩

/-- Claim C9 (amended): provided every supplied image path is free of
backtick characters — so the inserted image-reference lines can neither
contain nor help form a fenced block — the substituted text contains exactly
n - min(n, m) remaining tagged fenced blocks, where n is the number of
extracted diagrams and m the image-sequence length: each iteration with index
i below m removes exactly one fenced block.  (The unamended claim, quantified
over arbitrary image paths, is refuted by `claim9_counterexample`.) -/
theorem claim9_remaining_block_count (content : List Char) (images : List (List Char))
    (hbt : ∀ img ∈ images, backtickChar ∉ img) :
    (extract_mermaid_diagrams (create_enhanced_markdown content images)).length =
      (extract_mermaid_diagrams content).length -
        min (extract_mermaid_diagrams content).length images.length := by
  obtain ⟨segs, rest, hslen, hdec, hext, hcem, hsh⟩ :=
    cem_decomp images hbt (extract_mermaid_diagrams content) content 0 rfl
  unfold create_enhanced_markdown
  rw [hcem, chain_append, extract_shifted _ _ hsh, hext, List.length_drop,
    hslen, Nat.sub_zero]

/-- Claim C9 counterexample: with the single-block document and one image
path that itself contains a complete fenced block, the enhanced text still
contains one extractable block although n - min(n, m) = 0. -/
theorem claim9_counterexample :
    (extract_mermaid_diagrams (create_enhanced_markdown sampleDocTiny [evilPath])).length ≠
      (extract_mermaid_diagrams sampleDocTiny).length -
        min (extract_mermaid_diagrams sampleDocTiny).length [evilPath].length := by
  decide

/-- Claim C9 witness: the amended count theorem applied to the single-block
document and one backtick-free image path. -/
theorem claim9_witness :
    (∀ img ∈ ([goodPathA] : List (List Char)), backtickChar ∉ img) ∧
    (extract_mermaid_diagrams (create_enhanced_markdown sampleDocTiny [goodPathA])).length =
      (extract_mermaid_diagrams sampleDocTiny).length -
        min (extract_mermaid_diagrams sampleDocTiny).length
          ([goodPathA] : List (List Char)).length :=
  ⟨by decide, claim9_remaining_block_count sampleDocTiny [goodPathA] (by decide)⟩

